import Mathlib

/-!
# Verification of the WPS check-in client and orchestrator

A shallow embedding of `script/wps/api.py` and `script/wps/main.py`.

Modelling conventions:
* Python byte strings are `List Nat` with every element `< 256`; Python text
  strings appearing in the crypto layer are ASCII, so their UTF-8 encoding is
  the bytewise image of the character list (`textBytes`).
* The AES block primitive comes from the external pycryptodome library; it is
  modelled as an abstract keyed block cipher family (`BlockCipherFamily`)
  whose only assumed properties are the ones the library guarantees:
  the keyed 16-byte block map is length-preserving, invertible, and maps
  bytes to bytes.  CBC chaining, PKCS7 padding, zero key padding and base64
  are implemented concretely, following the source.
* The two HTTP exchanges are modelled by explicit environment values
  (`HttpResult`): a call either raises a `requests` exception or yields a
  status code together with the outcome of parsing the response JSON.
* Randomness and the clock are extra function/value parameters.
* Raised exceptions are modelled with `Except`/`Option`; a Python function
  that catches every exception and returns a dictionary becomes a total Lean
  function into a result type.
-/

namespace WPSSpec

/-! ## Key generator (`WPSEncryption.generate_aes_key`, api.py lines 27-41) -/

/-- `chars = string.ascii_lowercase + string.digits` (api.py line 38). -/
def aesKeyChars : List Char := "abcdefghijklmnopqrstuvwxyz0123456789".toList

/-- One draw of `random.choice(chars)`; the random source is modelled as a
function `rand` from the draw index to a natural number, reduced mod 36
(the alphabet size) to pick a character. -/
def randomChoice (rand : Nat → Nat) (i : Nat) : Char :=
  aesKeyChars.getD (rand i % 36) 'a'

/-- `''.join(random.choice(chars) for _ in range(n))` (api.py line 39). -/
def random_part (rand : Nat → Nat) (n : Nat) : List Char :=
  (List.range n).map (randomChoice rand)

/-- The character of a single decimal digit. -/
def digitChar (n : Nat) : Char := Char.ofNat (48 + n)

/-- The decimal representation of a natural number, `str(n)` in Python
(api.py line 40 applies it to `int(time.time())`). -/
def decimalDigits (n : Nat) : List Char :=
  if _h : n < 10 then [digitChar n]
  else decimalDigits (n / 10) ++ [digitChar (n % 10)]
termination_by n
decreasing_by exact Nat.div_lt_self (by omega) (by omega)

/-- `WPSEncryption.generate_aes_key` (api.py lines 27-41): a random
alphanumeric part of `length - 10` characters followed by the decimal
digits of the current Unix timestamp `now`. -/
def generate_aes_key (rand : Nat → Nat) (now : Nat) (length : Nat) : List Char :=
  random_part rand (length - 10) ++ decimalDigits now

/-! ## Symmetric encryption (`WPSEncryption.aes_encrypt`, api.py lines 43-71) -/

/-- UTF-8 encoding of the ASCII texts this protocol feeds to the cipher
(generated keys use only `[a-z0-9]`): one byte per character. -/
def textBytes (s : List Char) : List Nat := s.map Char.toNat

/-- `key_bytes + b'\x00' * (32 - len(key_bytes))` (api.py line 57).  Note the
Python multiplier is clamped at zero for oversized keys, exactly like
truncated subtraction here. -/
def zeroPadKey (key : List Nat) : List Nat :=
  key ++ List.replicate (32 - key.length) 0

/-- `aes_key[:16].encode('utf-8')` (api.py line 60): the IV is the first 16
bytes of the key text. -/
def ivOf (key : List Nat) : List Nat := key.take 16

/-- `Crypto.Util.Padding.pad(plain_bytes, AES.block_size)` (api.py line 67):
PKCS7 padding to 16-byte blocks. -/
def pkcs7Pad (data : List Nat) : List Nat :=
  data ++ List.replicate (16 - data.length % 16) (16 - data.length % 16)

/-- PKCS7 unpadding (the inverse convention named by the spec): read the last
byte as the pad length and remove that many bytes, rejecting impossible
lengths. -/
def pkcs7Unpad (data : List Nat) : Option (List Nat) :=
  data.getLast?.bind fun n =>
    if n = 0 ∨ data.length < n then none else some (data.take (data.length - n))

/-- Bytewise XOR of two byte strings. -/
def xorBytes (a b : List Nat) : List Nat := List.zipWith (fun x y => x ^^^ y) a b

/-- Split a byte string into consecutive 16-byte blocks (the block traversal
performed inside the cipher object). -/
def toBlocks (l : List Nat) : List (List Nat) :=
  if h : l = [] then [] else l.take 16 :: toBlocks (l.drop 16)
termination_by l.length
decreasing_by
  simp only [List.length_drop]
  have hpos := List.length_pos.mpr h
  omega

/-- The raw AES block primitive supplied by pycryptodome, abstracted: a keyed
family of invertible, length- and byte-preserving maps on 16-byte blocks. -/
structure BlockCipherFamily where
  enc : List Nat → List Nat → List Nat
  dec : List Nat → List Nat → List Nat
  dec_enc : ∀ k b, b.length = 16 → dec k (enc k b) = b
  enc_length : ∀ k b, b.length = 16 → (enc k b).length = 16
  enc_bytes : ∀ k b, b.length = 16 → (∀ x ∈ b, x < 256) → ∀ x ∈ enc k b, x < 256

/-- CBC-mode encryption of a block sequence with chaining value `prev`
(initially the IV): `c_i = E(p_i XOR c_(i-1))`. -/
def cbcEncBlocks (E : List Nat → List Nat) (prev : List Nat) : List (List Nat) → List (List Nat)
  | [] => []
  | b :: bs => E (xorBytes b prev) :: cbcEncBlocks E (E (xorBytes b prev)) bs

/-- CBC-mode decryption of a block sequence with chaining value `prev`
(initially the IV): `p_i = D(c_i) XOR c_(i-1)`. -/
def cbcDecBlocks (D : List Nat → List Nat) (prev : List Nat) : List (List Nat) → List (List Nat)
  | [] => []
  | c :: cs => xorBytes (D c) prev :: cbcDecBlocks D c cs

/-- The base64 alphabet. -/
def b64Alphabet : List Char :=
  "ABCDEFGHIJKLMNOPQRSTUVWXYZabcdefghijklmnopqrstuvwxyz0123456789+/".toList

/-- Character of a sextet value. -/
def b64charOf (n : Nat) : Char := b64Alphabet.getD n '='

/-- Sextet value of a base64 character. -/
def b64valOf (c : Char) : Nat := b64Alphabet.indexOf c

/-- `base64.b64encode` (api.py line 71) over byte lists, producing the
character list of the textual result. -/
def b64encodeChars : List Nat → List Char
  | [] => []
  | [a] => [b64charOf (a / 4), b64charOf (a % 4 * 16), '=', '=']
  | [a, b] => [b64charOf (a / 4), b64charOf (a % 4 * 16 + b / 16), b64charOf (b % 16 * 4), '=']
  | a :: b :: c :: rest =>
    b64charOf (a / 4) :: b64charOf (a % 4 * 16 + b / 16) :: b64charOf (b % 16 * 4 + c / 64) ::
      b64charOf (c % 64) :: b64encodeChars rest

/-- `base64.b64decode`: the inverse reading of the base64 text. -/
def b64decodeChars : List Char → Option (List Nat)
  | [] => some []
  | c1 :: c2 :: c3 :: c4 :: rest =>
    if c3 = '=' then
      if c4 = '=' ∧ rest = [] then some [b64valOf c1 * 4 + b64valOf c2 / 16] else none
    else if c4 = '=' then
      if rest = [] then
        some [b64valOf c1 * 4 + b64valOf c2 / 16, b64valOf c2 % 16 * 16 + b64valOf c3 / 4]
      else none
    else
      (b64decodeChars rest).map fun tail =>
        (b64valOf c1 * 4 + b64valOf c2 / 16) ::
          (b64valOf c2 % 16 * 16 + b64valOf c3 / 4) ::
          (b64valOf c3 % 4 * 64 + b64valOf c4) :: tail
  | _ => none

/-- The exceptions `AES.new` raises for malformed key material (pycryptodome
`ValueError`s, the `EncodingError` of the spec's taxonomy). -/
inductive AesError where
  | badKeyLength
  | badIVLength
deriving DecidableEq

/-- `WPSEncryption.aes_encrypt` (api.py lines 43-71): zero-pad the key bytes
to 32, take the first 16 key bytes as IV, PKCS7-pad the plaintext, encrypt
in CBC mode and base64 the ciphertext.  `AES.new` rejects a key that is not
32 bytes after padding (i.e. an oversized key) and an IV that is not exactly
16 bytes; both raised `ValueError`s are modelled as `Except.error`. -/
def aes_encrypt (A : BlockCipherFamily) (plain key : List Nat) : Except AesError (List Char) :=
  if (zeroPadKey key).length ≠ 32 then .error .badKeyLength
  else if (ivOf key).length ≠ 16 then .error .badIVLength
  else .ok (b64encodeChars
    ((cbcEncBlocks (A.enc (zeroPadKey key)) (ivOf key) (toBlocks (pkcs7Pad plain))).flatten))

/-- The decryption procedure described by the specification for the
round-trip property: base64-decode, CBC-decrypt with the same zero-padded
key and the IV derived from the first 16 key bytes, then PKCS7-unpad. -/
def aes_decrypt (A : BlockCipherFamily) (cipherText : List Char) (key : List Nat) :
    Option (List Nat) :=
  (b64decodeChars cipherText).bind fun ct =>
    pkcs7Unpad ((cbcDecBlocks (A.dec (zeroPadKey key)) (ivOf key) (toBlocks ct)).flatten)

/-- Encrypt then decrypt under the same key: the round-trip pipeline.
`none` when encryption raises or decryption fails to recover a plaintext. -/
def encThenDec (A : BlockCipherFamily) (plain key : List Nat) : Option (List Nat) :=
  match aes_encrypt A plain key with
  | .ok c => aes_decrypt A c key
  | .error _ => none

/-- A trivial block cipher family (the identity on blocks), used to
instantiate abstract-cipher statements at concrete inputs. -/
def idFam : BlockCipherFamily where
  enc := fun _ b => b
  dec := fun _ b => b
  dec_enc := fun _ _ _ => rfl
  enc_length := fun _ _ h => h
  enc_bytes := fun _ _ _ hb => hb

/-! ## Protocol client (`WPSAPI`, api.py lines 91-349) -/

/-- A flat JSON object, the shape of the server's `data` payload on the
sign-in endpoint (e.g. `{"points": 5}`). -/
abbrev JsonObj := List (String × Int)

/-- The JSON body of the key-fetch endpoint: optional `result`, `msg` and
`data` fields (absent fields are `none`). -/
structure KeyResp where
  result : Option String
  msg : Option String
  data : Option String
deriving DecidableEq

/-- The JSON body of the sign-in endpoint. -/
structure SignResp where
  result : Option String
  msg : Option String
  data : Option JsonObj
deriving DecidableEq

/-- The behaviour of one HTTP call: either the `requests` library raises a
`RequestException` (transport error or timeout), or a response arrives with
a status code and a JSON-parse outcome (`Except.error` when `.json()`
raises). -/
inductive HttpResult (α : Type) where
  | requestException (e : String)
  | response (status : Nat) (body : Except String α)

/-- The dictionary returned by `WPSAPI.get_encrypt_key`. -/
inductive KeyResult where
  | ok (public_key : String)
  | fail (error : String)
deriving DecidableEq

/-- The error text of a `requests.HTTPError` raised by
`raise_for_status` on a 4xx/5xx response (the exact wording is internal to
the `requests` library; only the status matters here). -/
def httpErrorText (status : Nat) : String := toString status ++ " Error"

/-- `WPSAPI.get_encrypt_key` (api.py lines 149-202).  `raise_for_status`
turns any status `≥ 400` into a `RequestException`; on a parsed body the
key is returned when `result == 'ok'` and `data` is present, otherwise the
server's `msg` (default `'未知错误'`) becomes the error; raised exceptions
are caught and normalised. -/
def get_encrypt_key (env : HttpResult KeyResp) : KeyResult :=
  match env with
  | .requestException e => .fail ("网络请求失败: " ++ e)
  | .response status body =>
    if 400 ≤ status then .fail ("网络请求失败: " ++ httpErrorText status)
    else
      match body with
      | .error e => .fail ("未知错误: " ++ e)
      | .ok r =>
        if r.result = some "ok" ∧ r.data.isSome then .ok (r.data.getD "")
        else .fail (r.msg.getD "未知错误")

/-- The artifacts built by `WPSAPI.generate_crypto_data` (api.py lines
204-250).  The construction itself mixes randomness, the clock and the RSA
library; for control-flow claims it is abstracted as an environment-supplied
outcome: either the artifacts or a raised exception's message (e.g. a base64
or RSA key decoding failure). -/
structure CryptoData where
  extra : String
  token : String
  aesKey : String
deriving DecidableEq

/-- The full behaviour of the environment during one `sign_in` call:
the key-fetch HTTP call, the crypto-artifact construction, and the sign-in
HTTP POST. -/
structure SignInEnv where
  keyFetch : HttpResult KeyResp
  crypto : Except String CryptoData
  submit : HttpResult SignResp

/-- The dictionary returned by `WPSAPI.sign_in`. -/
inductive SignResult where
  | ok (data : JsonObj)
  | fail (error : String)
deriving DecidableEq

/-- The network calls a run can issue, recorded as an instrumentation
trace. -/
inductive NetCall where
  | getKey
  | postSignIn
deriving DecidableEq

/-- `WPSAPI.sign_in` (api.py lines 252-349), instrumented with the list of
network calls issued.  Steps: fetch the RSA key (failure short-circuits with
`'获取公钥失败: '` prefixed to the fetch error); build crypto artifacts (a
raised exception is caught by the outer `except Exception` as
`'未知错误: '`); POST the sign-in request; interpret HTTP 200 plus
`result == 'ok'` as success carrying `data` (default `{}`), any other parsed
result as failure with the server `msg` (default `'未知错误'`), a non-200
status as `'HTTP <status>'`, and raised exceptions as normalised failures. -/
def sign_in (env : SignInEnv) : SignResult × List NetCall :=
  match get_encrypt_key env.keyFetch with
  | .fail e => (.fail ("获取公钥失败: " ++ e), [.getKey])
  | .ok _pk =>
    match env.crypto with
    | .error e => (.fail ("未知错误: " ++ e), [.getKey])
    | .ok _cd =>
      match env.submit with
      | .requestException e => (.fail ("网络请求失败: " ++ e), [.getKey, .postSignIn])
      | .response status body =>
        if status = 200 then
          match body with
          | .error e => (.fail ("未知错误: " ++ e), [.getKey, .postSignIn])
          | .ok r =>
            if r.result = some "ok" then (.ok (r.data.getD []), [.getKey, .postSignIn])
            else (.fail (r.msg.getD "未知错误"), [.getKey, .postSignIn])
        else (.fail ("HTTP " ++ toString status), [.getKey, .postSignIn])

/-! ## Orchestrator (`WPSTasks`, main.py lines 32-253) -/

/-- One account record from the configuration file: optional fields as
loaded from JSON (`none` models an absent key). -/
structure Account where
  account_name : Option String
  user_id : Option Int
  cookies : Option String
  user_agent : Option String
deriving DecidableEq

/-- One entry of `account_results`: the per-account result dictionary built
by `process_account` (main.py lines 120-125). -/
structure ProcResult where
  account_name : String
  success : Bool
  message : String
  sign_info : JsonObj
deriving DecidableEq

/-- `account_info.get('account_name', '未命名账号')` (main.py line 115). -/
def displayName (a : Account) : String := a.account_name.getD "未命名账号"

/-- The environment while processing one account: either some statement in
the `try` block raises an unexpected exception (after having issued the
given network calls), or `api.sign_in` runs under the given environment. -/
inductive AccountEnv where
  | raises (e : String) (calls : List NetCall)
  | signIn (env : SignInEnv)

/-- `WPSTasks.process_account` (main.py lines 105-172), instrumented with
the network calls issued.  A falsy `user_id` (absent or `0`) or falsy
`cookies` (absent or `''`) short-circuits to a failure result before the
API object is created; an unexpected exception is caught and converted to a
failure result; otherwise the result mirrors `sign_in`'s dictionary. -/
def process_account (env : AccountEnv) (a : Account) : ProcResult × List NetCall :=
  if a.user_id = none ∨ a.user_id = some 0 then
    (⟨displayName a, false, "账号配置中缺少user_id，跳过签到", []⟩, [])
  else if a.cookies.getD "" = "" then
    (⟨displayName a, false, "账号配置中缺少cookies", []⟩, [])
  else
    match env with
    | .raises e calls => (⟨displayName a, false, "处理账号时发生异常: " ++ e, []⟩, calls)
    | .signIn senv =>
      match sign_in senv with
      | (.ok d, calls) => (⟨displayName a, true, "签到成功", d⟩, calls)
      | (.fail e, calls) => (⟨displayName a, false, e, []⟩, calls)

/-- The per-account loop of `WPSTasks.run` (main.py lines 184-187),
instrumented: each account is processed under its own environment (indexed
by position) and contributes exactly one result, in order. -/
def runTasksFull (env : Nat → AccountEnv) : List Account → List (ProcResult × List NetCall)
  | [] => []
  | a :: rest => process_account (env 0) a :: runTasksFull (fun i => env (i + 1)) rest

/-- The collected `account_results` of a run. -/
def runTasks (env : Nat → AccountEnv) (accounts : List Account) : List ProcResult :=
  (runTasksFull env accounts).map Prod.fst

/-- An account record with a missing (or Python-falsy) required field, the
condition under which `process_account` short-circuits. -/
def missingRequired (a : Account) : Bool :=
  a.user_id.isNone || a.user_id == some 0 || a.cookies.getD "" == ""

/-- An account record literally missing the `user_id` or `cookies` field. -/
def fieldMissing (a : Account) : Bool := a.user_id.isNone || a.cookies.isNone

/-- The statistics computed by `_print_summary` and `_send_notification`
(main.py lines 201-203 and 222-224): `(total, success, failed)` with
`total = len(results)`, `success = sum(1 for r in results if r['success'])`,
`failed = total - success`. -/
def summaryOf (rs : List ProcResult) : Nat × Nat × Nat :=
  (rs.length, rs.countP (fun r => r.success), rs.length - rs.countP (fun r => r.success))

/-- The lines of the notification body built by `_send_notification`
(main.py lines 230-242): five header lines then one line per account. -/
def notificationLines (rs : List ProcResult) : List String :=
  ["📊 总账号数: " ++ toString (summaryOf rs).1,
   "✅ 签到成功: " ++ toString (summaryOf rs).2.1,
   "❌ 签到失败: " ++ toString (summaryOf rs).2.2,
   "",
   "📋 详细结果:"] ++
  rs.map (fun r => (if r.success then "✅" else "❌") ++ " " ++ r.account_name ++ ": " ++ r.message)

/-- `content = "\n".join(content_lines)` (main.py line 242). -/
def notificationContent (rs : List ProcResult) : String :=
  String.intercalate "\n" (notificationLines rs)

end WPSSpec

namespace WPSSpec

/-! ## General helper lemmas -/

theorem countP_add_countP_not (p : α → Bool) (l : List α) :
    l.countP p + l.countP (fun a => !p a) = l.length := by
  induction l with
  | nil => rfl
  | cons a l ih =>
    rw [List.countP_cons, List.countP_cons, List.length_cons]
    cases h : p a <;> simp [h] <;> omega

theorem getD_mem_of_lt (l : List α) (i : Nat) (d : α) (h : i < l.length) :
    l.getD i d ∈ l := by
  rw [List.getD_eq_getElem l d h]
  exact List.getElem_mem h

/-! ## Key generator lemmas -/

theorem random_part_length (rand : Nat → Nat) (n : Nat) :
    (random_part rand n).length = n := by
  simp [random_part]

theorem random_part_mem (rand : Nat → Nat) (n : Nat) :
    ∀ c ∈ random_part rand n, c ∈ aesKeyChars := by
  intro c hc
  simp only [random_part, List.mem_map, List.mem_range] at hc
  obtain ⟨i, _, rfl⟩ := hc
  exact getD_mem_of_lt _ _ _ (by
    have h36 : aesKeyChars.length = 36 := by decide
    rw [h36]
    exact Nat.mod_lt _ (by norm_num))

theorem decimalDigits_length :
    ∀ k n, 10 ^ k ≤ n → n < 10 ^ (k + 1) → (decimalDigits n).length = k + 1 := by
  intro k
  induction k with
  | zero =>
    intro n _ h2
    rw [decimalDigits, dif_pos (by simpa using h2)]
    rfl
  | succ k ih =>
    intro n h1 h2
    have h10 : 10 ≤ n := le_trans (by
      calc (10:ℕ) = 10 ^ 1 := (pow_one 10).symm
      _ ≤ 10 ^ (k + 1) := Nat.pow_le_pow_right (by norm_num) (by omega)) h1
    rw [decimalDigits, dif_neg (by omega)]
    have hdiv1 : 10 ^ k ≤ n / 10 := by
      rw [Nat.le_div_iff_mul_le (by norm_num)]
      calc 10 ^ k * 10 = 10 ^ (k + 1) := (pow_succ 10 k).symm
      _ ≤ n := h1
    have hdiv2 : n / 10 < 10 ^ (k + 1) := by
      rw [Nat.div_lt_iff_lt_mul (by norm_num)]
      calc n < 10 ^ (k + 1 + 1) := h2
      _ = 10 ^ (k + 1) * 10 := pow_succ 10 (k + 1)
    rw [List.length_append, ih (n / 10) hdiv1 hdiv2]
    rfl

/-- C2: for every requested length `L ≥ 11` (and the ten-digit Unix
timestamps of the current era), the generated key has length exactly `L`,
its last 10 characters are the decimal digits of the current timestamp with
no separator, and the first `L - 10` characters are drawn from the
lowercase-letter-and-digit alphabet. -/
theorem generate_aes_key_spec (rand : Nat → Nat) (now L : Nat)
    (hL : 11 ≤ L) (hlo : 10 ^ 9 ≤ now) (hhi : now < 10 ^ 10) :
    (generate_aes_key rand now L).length = L ∧
    (generate_aes_key rand now L).drop (L - 10) = decimalDigits now ∧
    ∀ c ∈ (generate_aes_key rand now L).take (L - 10), c ∈ aesKeyChars := by
  have hdlen : (decimalDigits now).length = 10 := decimalDigits_length 9 now hlo hhi
  have hrlen : (random_part rand (L - 10)).length = L - 10 := random_part_length rand (L - 10)
  refine ⟨?_, ?_, ?_⟩
  · unfold generate_aes_key
    rw [List.length_append, hrlen, hdlen]
    omega
  · unfold generate_aes_key
    exact List.drop_left' hrlen
  · unfold generate_aes_key
    rw [List.take_left' hrlen]
    exact random_part_mem rand (L - 10)

theorem generate_aes_key_spec_witness :
    (generate_aes_key (fun _ => 0) 1700000000 11).length = 11 :=
  (generate_aes_key_spec (fun _ => 0) 1700000000 11 (by norm_num) (by norm_num)
    (by norm_num)).1

/-- C4: the IV passed to the CBC cipher is exactly the UTF-8 encoding of the
first 16 characters of the key text (`aes_encrypt` feeds `ivOf` to the
cipher by definition), and the key generated for the default length 32 has
a 22-character random part before the timestamp, so the IV is taken wholly
from the random part and never overlaps the timestamp suffix. -/
theorem aes_iv_invariant (rand : Nat → Nat) (now : Nat) :
    ivOf (textBytes (generate_aes_key rand now 32)) =
      textBytes ((generate_aes_key rand now 32).take 16) ∧
    (generate_aes_key rand now 32).take 16 = (random_part rand 22).take 16 ∧
    16 ≤ (random_part rand 22).length := by
  refine ⟨?_, ?_, ?_⟩
  · simp [ivOf, textBytes, List.map_take]
  · show (random_part rand (32 - 10) ++ decimalDigits now).take 16 = _
    rw [List.take_append_of_le_length (by rw [random_part_length]; norm_num)]
  · rw [random_part_length]
    norm_num

/-! ## Oversized key rejection -/

/-- C5: a key text longer than 32 bytes cannot be zero-padded to 32 bytes:
`aes_encrypt` fails with the key-length error instead of silently
encrypting. -/
theorem aes_encrypt_oversized_key (A : BlockCipherFamily) (plain key : List Nat)
    (h : 32 < key.length) :
    aes_encrypt A plain key = Except.error AesError.badKeyLength := by
  unfold aes_encrypt
  rw [if_pos]
  unfold zeroPadKey
  rw [List.length_append, List.length_replicate]
  omega

theorem aes_encrypt_oversized_key_witness :
    aes_encrypt idFam [] (List.replicate 33 0) = Except.error AesError.badKeyLength :=
  aes_encrypt_oversized_key idFam [] (List.replicate 33 0)
    (by rw [List.length_replicate]; norm_num)

end WPSSpec

namespace WPSSpec

/-! ## Protocol client lemmas -/

theorem get_encrypt_key_response_ok (status : Nat) (r : KeyResp) :
    get_encrypt_key (HttpResult.response status (Except.ok r)) =
      if 400 ≤ status then KeyResult.fail ("网络请求失败: " ++ httpErrorText status)
      else if r.result = some "ok" ∧ r.data.isSome then KeyResult.ok (r.data.getD "")
      else KeyResult.fail (r.msg.getD "未知错误") := rfl

/-- C1: `sign_in` is a total function into the result-dictionary shape: for
every behaviour of the two HTTP calls and of the crypto construction, it
either returns `success=false` with an error message (never a raised
exception), or `success=true` carrying exactly the `data` payload of an
HTTP-200 response whose server status is `'ok'`. -/
theorem sign_in_result_shape (env : SignInEnv) :
    (∃ e, (sign_in env).1 = SignResult.fail e) ∨
    ∃ r : SignResp, env.submit = HttpResult.response 200 (Except.ok r) ∧
      r.result = some "ok" ∧ (sign_in env).1 = SignResult.ok (r.data.getD []) := by
  obtain ⟨kf, cr, sub⟩ := env
  cases hgk : get_encrypt_key kf with
  | fail e => exact Or.inl ⟨"获取公钥失败: " ++ e, by simp [sign_in, hgk]⟩
  | ok pk =>
    cases cr with
    | error e => exact Or.inl ⟨"未知错误: " ++ e, by simp [sign_in, hgk]⟩
    | ok cd =>
      cases sub with
      | requestException e =>
        exact Or.inl ⟨"网络请求失败: " ++ e, by simp [sign_in, hgk]⟩
      | response status body =>
        by_cases h200 : status = 200
        · subst h200
          cases body with
          | error e => exact Or.inl ⟨"未知错误: " ++ e, by simp [sign_in, hgk]⟩
          | ok r =>
            by_cases hok : r.result = some "ok"
            · exact Or.inr ⟨r, rfl, hok, by simp [sign_in, hgk, hok]⟩
            · exact Or.inl ⟨r.msg.getD "未知错误", by simp [sign_in, hgk, hok]⟩
        · exact Or.inl ⟨"HTTP " ++ toString status, by simp [sign_in, hgk, h200]⟩

/-- C6: when the key-fetch call yields an HTTP-passing response whose server
status is not `'ok'` and carries message `m`, `sign_in` fails with
`'获取公钥失败: '` followed by `m`, and the sign-in POST is never issued. -/
theorem sign_in_keyfetch_fail_no_post (env : SignInEnv) (status : Nat) (r : KeyResp)
    (m : String)
    (hk : env.keyFetch = HttpResult.response status (Except.ok r))
    (hst : status < 400)
    (hres : r.result ≠ some "ok")
    (hmsg : r.msg = some m) :
    (sign_in env).1 = SignResult.fail ("获取公钥失败: " ++ m) ∧
    NetCall.postSignIn ∉ (sign_in env).2 := by
  have hgk : get_encrypt_key env.keyFetch = KeyResult.fail m := by
    rw [hk, get_encrypt_key_response_ok, if_neg (by omega),
      if_neg (fun hh => hres hh.1), hmsg]
    rfl
  exact ⟨by simp [sign_in, hgk], by simp [sign_in, hgk]⟩

theorem sign_in_keyfetch_fail_no_post_witness :
    (sign_in ⟨HttpResult.response 200 (Except.ok ⟨some "fail", some "invalid cookie", none⟩),
        Except.error "unused", HttpResult.requestException "unused"⟩).1 =
      SignResult.fail ("获取公钥失败: " ++ "invalid cookie") ∧
    NetCall.postSignIn ∉ (sign_in ⟨HttpResult.response 200
        (Except.ok ⟨some "fail", some "invalid cookie", none⟩),
        Except.error "unused", HttpResult.requestException "unused"⟩).2 :=
  sign_in_keyfetch_fail_no_post _ 200 ⟨some "fail", some "invalid cookie", none⟩
    "invalid cookie" rfl (by norm_num) (by decide) rfl

end WPSSpec

namespace WPSSpec

/-! ## Orchestrator lemmas -/

theorem process_account_fst_name (env : AccountEnv) (a : Account) :
    (process_account env a).1.account_name = displayName a := by
  unfold process_account
  split
  · rfl
  · split
    · rfl
    · split
      · rfl
      · split <;> rfl

theorem runTasksFull_length (env : Nat → AccountEnv) (accounts : List Account) :
    (runTasksFull env accounts).length = accounts.length := by
  induction accounts generalizing env with
  | nil => rfl
  | cons a rest ih => simp [runTasksFull, ih]

/-- C8: the run produces exactly one result per account, in input order
(result `i` is labelled with account `i`'s display name), for every
environment — including environments in which processing some account
raises an unexpected exception. -/
theorem run_one_result_per_account (env : Nat → AccountEnv) (accounts : List Account) :
    (runTasks env accounts).length = accounts.length ∧
    (runTasks env accounts).map ProcResult.account_name = accounts.map displayName := by
  induction accounts generalizing env with
  | nil => exact ⟨rfl, rfl⟩
  | cons a rest ih =>
    obtain ⟨ih1, ih2⟩ := ih (fun i => env (i + 1))
    constructor
    · simp only [runTasks, runTasksFull, List.map_cons, List.length_cons]
      rw [show ((runTasksFull (fun i => env (i + 1)) rest).map Prod.fst).length =
        (runTasks (fun i => env (i + 1)) rest).length from rfl, ih1]
    · simp only [runTasks, runTasksFull, List.map_cons]
      rw [process_account_fst_name]
      rw [show ((runTasksFull (fun i => env (i + 1)) rest).map Prod.fst).map
        ProcResult.account_name = (runTasks (fun i => env (i + 1)) rest).map
        ProcResult.account_name from rfl, ih2]

/-! ## Field validation lemmas -/

theorem sign_in_trace_ne_nil (senv : SignInEnv) : (sign_in senv).2 ≠ [] := by
  unfold sign_in
  repeat' split
  all_goals simp

theorem process_account_missing (env : AccountEnv) (a : Account)
    (h : missingRequired a = true) :
    (process_account env a).2 = [] ∧ (process_account env a).1.success = false := by
  simp only [missingRequired, Bool.or_eq_true, beq_iff_eq, Option.isNone_iff_eq_none] at h
  unfold process_account
  rcases h with (h | h) | h
  · rw [if_pos (Or.inl h)]; exact ⟨rfl, rfl⟩
  · rw [if_pos (Or.inr h)]; exact ⟨rfl, rfl⟩
  · by_cases h1 : a.user_id = none ∨ a.user_id = some 0
    · rw [if_pos h1]; exact ⟨rfl, rfl⟩
    · rw [if_neg h1, if_pos h]; exact ⟨rfl, rfl⟩

theorem process_account_complete (senv : SignInEnv) (a : Account)
    (h : missingRequired a = false) :
    (process_account (AccountEnv.signIn senv) a).2 = (sign_in senv).2 := by
  simp only [missingRequired, Bool.or_eq_false_iff, beq_eq_false_iff_ne, ne_eq,
    Option.isNone_eq_false_iff, Option.isSome_iff_ne_none] at h
  obtain ⟨⟨h1, h2⟩, h3⟩ := h
  unfold process_account
  rw [if_neg (by tauto), if_neg h3]
  show (match sign_in senv with
      | (SignResult.ok d, calls) =>
        ((⟨displayName a, true, "签到成功", d⟩ : ProcResult), calls)
      | (SignResult.fail e, calls) =>
        ((⟨displayName a, false, e, []⟩ : ProcResult), calls)).2 = (sign_in senv).2
  rcases sign_in senv with ⟨d | e, calls⟩ <;> rfl

end WPSSpec

namespace WPSSpec

theorem run_signIn_countP_missing (envs : Nat → SignInEnv) (accounts : List Account) :
    (runTasksFull (fun i => AccountEnv.signIn (envs i)) accounts).countP
      (fun r => r.2.isEmpty) = accounts.countP missingRequired := by
  induction accounts generalizing envs with
  | nil => rfl
  | cons a rest ih =>
    rw [show runTasksFull (fun i => AccountEnv.signIn (envs i)) (a :: rest) =
      process_account (AccountEnv.signIn (envs 0)) a ::
        runTasksFull (fun i => AccountEnv.signIn (envs (i + 1))) rest from rfl]
    rw [List.countP_cons, List.countP_cons, ih (fun i => envs (i + 1))]
    congr 1
    by_cases h : missingRequired a = true
    · have hm := (process_account_missing (AccountEnv.signIn (envs 0)) a h).1
      rw [hm, h]
      simp
    · have h' : missingRequired a = false := by simpa using h
      have hc := process_account_complete (envs 0) a h'
      have hne := sign_in_trace_ne_nil (envs 0)
      rw [hc, h']
      simp [hne]

theorem run_signIn_noNet_failure (envs : Nat → SignInEnv) (accounts : List Account) :
    ∀ r ∈ runTasksFull (fun i => AccountEnv.signIn (envs i)) accounts,
      r.2.isEmpty = true → r.1.success = false := by
  induction accounts generalizing envs with
  | nil => intro r hr; simp [runTasksFull] at hr
  | cons a rest ih =>
    intro r hr hemp
    rw [show runTasksFull (fun i => AccountEnv.signIn (envs i)) (a :: rest) =
      process_account (AccountEnv.signIn (envs 0)) a ::
        runTasksFull (fun i => AccountEnv.signIn (envs (i + 1))) rest from rfl] at hr
    rcases List.mem_cons.mp hr with hr | hr
    · subst hr
      by_cases h : missingRequired a = true
      · exact (process_account_missing _ a h).2
      · exfalso
        have h' : missingRequired a = false := by simpa using h
        rw [process_account_complete (envs 0) a h'] at hemp
        exact sign_in_trace_ne_nil (envs 0) (List.isEmpty_iff.mp hemp)
    · exact ih (fun i => envs (i + 1)) r hr hemp

/-- C7 counterexample to the claim as stated: the record
`{account_name: "A", user_id: 0, cookies: "c=1"}` is missing neither the
`user_id` field nor the `cookies` field, so the claim counts it among the
`N - M` accounts that attempt the full fetch-and-submit flow; yet the
Python-falsy `user_id` short-circuits `process_account` with no network
call, so the run's no-network result count (1) differs from the
missing-field count (0). -/
theorem orchestrator_fieldMissing_cex :
    ¬ ((runTasksFull (fun _ => AccountEnv.signIn
        ⟨HttpResult.requestException "conn", Except.error "e",
         HttpResult.requestException "conn"⟩)
      [⟨some "A", some 0, some "c=1", none⟩]).countP (fun r => r.2.isEmpty) =
      ([⟨some "A", some 0, some "c=1", none⟩] : List Account).countP fieldMissing) := by
  decide

/-- C7 (amended): under environments where processing itself does not raise
(each account's run is a `sign_in` under some HTTP environment), exactly the
accounts whose `user_id` or `cookies` is missing or present-but-falsy
(`user_id` absent or `0`, `cookies` absent or `''`) yield results with an
empty network trace — all of them failures — and the remaining `N - M`
accounts issue network calls (attempt the sign-in flow). -/
theorem orchestrator_missing_or_falsy_validation (envs : Nat → SignInEnv)
    (accounts : List Account) :
    (runTasksFull (fun i => AccountEnv.signIn (envs i)) accounts).countP
        (fun r => r.2.isEmpty) = accounts.countP missingRequired ∧
    (runTasksFull (fun i => AccountEnv.signIn (envs i)) accounts).countP
        (fun r => !r.2.isEmpty) = accounts.length - accounts.countP missingRequired ∧
    ∀ r ∈ runTasksFull (fun i => AccountEnv.signIn (envs i)) accounts,
      r.2.isEmpty = true → r.1.success = false := by
  refine ⟨run_signIn_countP_missing envs accounts, ?_, run_signIn_noNet_failure envs accounts⟩
  have h1 := run_signIn_countP_missing envs accounts
  have hsum := countP_add_countP_not (fun r => r.2.isEmpty)
    (runTasksFull (fun i => AccountEnv.signIn (envs i)) accounts)
  have hlen := runTasksFull_length (fun i => AccountEnv.signIn (envs i)) accounts
  omega

/-- C9: the computed summary satisfies `total` = number of results,
`success` = number of results with `success=true`, `failed` =
`total - success` (which equals the number of results with
`success=false`), and the notification body has exactly one line per
account plus five fixed header lines. -/
theorem summary_report_correct (rs : List ProcResult) :
    (summaryOf rs).1 = rs.length ∧
    (summaryOf rs).2.1 = (rs.filter (fun r => r.success)).length ∧
    (summaryOf rs).2.2 = (summaryOf rs).1 - (summaryOf rs).2.1 ∧
    (summaryOf rs).2.2 = (rs.filter (fun r => !r.success)).length ∧
    (notificationLines rs).length = rs.length + 5 := by
  have hfilter : rs.countP (fun r => r.success) = (rs.filter (fun r => r.success)).length :=
    List.countP_eq_length_filter (fun r : ProcResult => r.success) rs
  have hnot : rs.countP (fun r => !r.success) = (rs.filter (fun r => !r.success)).length :=
    List.countP_eq_length_filter (fun r : ProcResult => !r.success) rs
  have hsum := countP_add_countP_not (fun r => r.success) rs
  refine ⟨rfl, hfilter, rfl, ?_, ?_⟩
  · show rs.length - rs.countP (fun r => r.success) = _
    omega
  · simp only [notificationLines, List.length_append, List.length_map, List.length_cons]
    simp [Nat.add_comm]

/-- C10: a `user_id` that is present but `0` (Python-falsy) short-circuits
exactly like an absent `user_id`: the same missing-`user_id` failure result,
with no network call. -/
theorem user_id_zero_short_circuits (env : AccountEnv) (name : Option String)
    (cookies ua : Option String) :
    process_account env ⟨name, some 0, cookies, ua⟩ =
      process_account env ⟨name, none, cookies, ua⟩ ∧
    process_account env ⟨name, some 0, cookies, ua⟩ =
      (⟨displayName ⟨name, some 0, cookies, ua⟩, false,
        "账号配置中缺少user_id，跳过签到", []⟩, []) := by
  constructor
  · unfold process_account
    rw [if_pos (Or.inr rfl), if_pos (Or.inl rfl)]
    rfl
  · unfold process_account
    rw [if_pos (Or.inr rfl)]

end WPSSpec

namespace WPSSpec

/-! ## Base64 round-trip -/

theorem b64valOf_charOf_all : ∀ n < 64, b64valOf (b64charOf n) = n := by decide

theorem b64charOf_ne_pad : ∀ n < 64, b64charOf n ≠ '=' := by decide

theorem b64_roundtrip : ∀ l : List Nat, (∀ x ∈ l, x < 256) →
    b64decodeChars (b64encodeChars l) = some l
  | [], _ => rfl
  | [a], h => by
    have ha : a < 256 := h a (by simp)
    simp only [b64encodeChars, b64decodeChars, if_pos rfl, and_self, if_true]
    rw [b64valOf_charOf_all (a / 4) (by omega), b64valOf_charOf_all (a % 4 * 16) (by omega)]
    congr 1
    congr 1
    omega
  | [a, b], h => by
    have ha : a < 256 := h a (by simp)
    have hb : b < 256 := h b (by simp)
    simp only [b64encodeChars, b64decodeChars]
    rw [if_neg (b64charOf_ne_pad (b % 16 * 4) (by omega))]
    simp only [if_true]
    rw [b64valOf_charOf_all (a / 4) (by omega),
      b64valOf_charOf_all (a % 4 * 16 + b / 16) (by omega),
      b64valOf_charOf_all (b % 16 * 4) (by omega)]
    have e1 : a / 4 * 4 + (a % 4 * 16 + b / 16) / 16 = a := by omega
    have e2 : (a % 4 * 16 + b / 16) % 16 * 16 + b % 16 * 4 / 4 = b := by omega
    rw [e1, e2]
  | a :: b :: c :: d :: rest, h => by
    have ha : a < 256 := h a (by simp)
    have hb : b < 256 := h b (by simp)
    have hc : c < 256 := h c (by simp)
    have hrest := b64_roundtrip (d :: rest) (fun x hx => h x (by simp at hx ⊢; tauto))
    simp only [b64encodeChars, b64decodeChars]
    rw [if_neg (b64charOf_ne_pad (b % 16 * 4 + c / 64) (by omega)),
      if_neg (b64charOf_ne_pad (c % 64) (by omega))]
    rw [hrest]
    simp only [Option.map_some']
    rw [b64valOf_charOf_all (a / 4) (by omega),
      b64valOf_charOf_all (a % 4 * 16 + b / 16) (by omega),
      b64valOf_charOf_all (b % 16 * 4 + c / 64) (by omega),
      b64valOf_charOf_all (c % 64) (by omega)]
    have e1 : a / 4 * 4 + (a % 4 * 16 + b / 16) / 16 = a := by omega
    have e2 : (a % 4 * 16 + b / 16) % 16 * 16 + (b % 16 * 4 + c / 64) / 4 = b := by omega
    have e3 : (b % 16 * 4 + c / 64) % 4 * 64 + c % 64 = c := by omega
    rw [e1, e2, e3]
  | [a, b, c], h => by
    have ha : a < 256 := h a (by simp)
    have hb : b < 256 := h b (by simp)
    have hc : c < 256 := h c (by simp)
    simp only [b64encodeChars, b64decodeChars]
    rw [if_neg (b64charOf_ne_pad (b % 16 * 4 + c / 64) (by omega)),
      if_neg (b64charOf_ne_pad (c % 64) (by omega))]
    simp only [Option.map_some']
    rw [b64valOf_charOf_all (a / 4) (by omega),
      b64valOf_charOf_all (a % 4 * 16 + b / 16) (by omega),
      b64valOf_charOf_all (b % 16 * 4 + c / 64) (by omega),
      b64valOf_charOf_all (c % 64) (by omega)]
    have e1 : a / 4 * 4 + (a % 4 * 16 + b / 16) / 16 = a := by omega
    have e2 : (a % 4 * 16 + b / 16) % 16 * 16 + (b % 16 * 4 + c / 64) / 4 = b := by omega
    have e3 : (b % 16 * 4 + c / 64) % 4 * 64 + c % 64 = c := by omega
    rw [e1, e2, e3]

end WPSSpec

namespace WPSSpec

/-! ## PKCS7 padding round-trip -/

theorem pkcs7Pad_length_mod (d : List Nat) : (pkcs7Pad d).length % 16 = 0 := by
  simp only [pkcs7Pad, List.length_append, List.length_replicate]
  omega

theorem pkcs7Pad_bytes (d : List Nat) (h : ∀ x ∈ d, x < 256) :
    ∀ x ∈ pkcs7Pad d, x < 256 := by
  intro x hx
  rcases List.mem_append.mp hx with hx | hx
  · exact h x hx
  · have := List.eq_of_mem_replicate hx
    omega

theorem pkcs7Unpad_pad (d : List Nat) : pkcs7Unpad (pkcs7Pad d) = some d := by
  have hmod : d.length % 16 < 16 := Nat.mod_lt _ (by norm_num)
  obtain ⟨m, hm⟩ : ∃ m, 16 - d.length % 16 = m + 1 := ⟨15 - d.length % 16, by omega⟩
  unfold pkcs7Pad pkcs7Unpad
  rw [hm, List.replicate_succ', ← List.append_assoc, List.getLast?_concat]
  have hlen : (d ++ List.replicate m (m + 1) ++ [m + 1]).length = d.length + m + 1 := by
    simp only [List.length_append, List.length_replicate, List.length_cons, List.length_nil]
  show (if m + 1 = 0 ∨ (d ++ List.replicate m (m + 1) ++ [m + 1]).length < m + 1 then none
    else some ((d ++ List.replicate m (m + 1) ++ [m + 1]).take
      ((d ++ List.replicate m (m + 1) ++ [m + 1]).length - (m + 1)))) = some d
  rw [if_neg (by rw [hlen]; omega)]
  rw [show (d ++ List.replicate m (m + 1) ++ [m + 1]).length - (m + 1) = d.length from by
    rw [hlen]; omega]
  rw [List.append_assoc, List.take_left' rfl]

end WPSSpec

namespace WPSSpec

/-! ## Block splitting -/

theorem toBlocks_nil : toBlocks [] = [] := by
  rw [toBlocks]
  simp

theorem flatten_toBlocks (l : List Nat) : (toBlocks l).flatten = l := by
  by_cases h : l = []
  · subst h
    rw [toBlocks_nil]
    rfl
  · rw [toBlocks, dif_neg h, List.flatten_cons, flatten_toBlocks (l.drop 16)]
    exact List.take_append_drop 16 l
termination_by l.length
decreasing_by
  simp only [List.length_drop]
  have hpos := List.length_pos.mpr h
  omega

theorem toBlocks_mem_length (l : List Nat) (hmod : l.length % 16 = 0) :
    ∀ b ∈ toBlocks l, b.length = 16 := by
  by_cases h : l = []
  · subst h
    rw [toBlocks_nil]
    simp
  · have hpos := List.length_pos.mpr h
    have h16 : 16 ≤ l.length := by omega
    rw [toBlocks, dif_neg h]
    intro b hb
    rcases List.mem_cons.mp hb with rfl | hb
    · rw [List.length_take]
      omega
    · exact toBlocks_mem_length (l.drop 16) (by rw [List.length_drop]; omega) b hb
termination_by l.length
decreasing_by
  simp only [List.length_drop]
  omega

theorem toBlocks_mem_bytes (l : List Nat) (hl : ∀ x ∈ l, x < 256) :
    ∀ b ∈ toBlocks l, ∀ x ∈ b, x < 256 := by
  by_cases h : l = []
  · subst h
    rw [toBlocks_nil]
    simp
  · rw [toBlocks, dif_neg h]
    intro b hb
    rcases List.mem_cons.mp hb with rfl | hb
    · exact fun x hx => hl x (List.take_subset 16 l hx)
    · exact toBlocks_mem_bytes (l.drop 16) (fun x hx => hl x (List.drop_subset 16 l hx)) b hb
termination_by l.length
decreasing_by
  simp only [List.length_drop]
  have hpos := List.length_pos.mpr h
  omega

theorem toBlocks_flatten_of_blocks (bs : List (List Nat))
    (h : ∀ b ∈ bs, b.length = 16) : toBlocks bs.flatten = bs := by
  induction bs with
  | nil => exact toBlocks_nil
  | cons b rest ih =>
    have hb : b.length = 16 := h b (by simp)
    have hne : (b :: rest).flatten ≠ [] := by
      apply List.length_pos.mp
      rw [List.flatten_cons, List.length_append, hb]
      omega
    rw [List.flatten_cons] at hne ⊢
    rw [toBlocks, dif_neg hne, List.take_left' hb, List.drop_left' hb,
      ih (fun b hb => h b (by simp [hb]))]

/-! ## XOR lemmas -/

theorem xorBytes_length (a b : List Nat) :
    (xorBytes a b).length = min a.length b.length :=
  List.length_zipWith (fun x y => x ^^^ y) a b

theorem xorBytes_cancel (a p : List Nat) (h : a.length = p.length) :
    xorBytes (xorBytes a p) p = a := by
  induction a generalizing p with
  | nil => rfl
  | cons x xs ih =>
    cases p with
    | nil => simp at h
    | cons y ys =>
      simp only [xorBytes, List.zipWith_cons_cons]
      rw [Nat.xor_cancel_right]
      exact congrArg (x :: ·) (ih ys (by simpa using h))

theorem xorBytes_bytes (a b : List Nat) (ha : ∀ x ∈ a, x < 256) (hb : ∀ x ∈ b, x < 256) :
    ∀ x ∈ xorBytes a b, x < 256 := by
  induction a generalizing b with
  | nil => simp [xorBytes]
  | cons x xs ih =>
    cases b with
    | nil => simp [xorBytes]
    | cons y ys =>
      intro z hz
      simp only [xorBytes, List.zipWith_cons_cons, List.mem_cons] at hz
      rcases hz with rfl | hz
      · have hx : x < 2 ^ 8 := by simpa using ha x (by simp)
        have hy : y < 2 ^ 8 := by simpa using hb y (by simp)
        simpa using Nat.xor_lt_two_pow hx hy
      · exact ih ys (fun u hu => ha u (List.mem_cons_of_mem x hu))
          (fun u hu => hb u (List.mem_cons_of_mem y hu)) z hz

end WPSSpec

namespace WPSSpec

/-! ## CBC round-trip -/

theorem cbcEnc_mem_length (A : BlockCipherFamily) (k : List Nat) :
    ∀ (prev : List Nat) (bs : List (List Nat)), prev.length = 16 →
      (∀ b ∈ bs, b.length = 16) →
      ∀ c ∈ cbcEncBlocks (A.enc k) prev bs, c.length = 16
  | _, [], _, _ => by simp [cbcEncBlocks]
  | prev, b :: rest, hprev, hbs => by
    have hb : b.length = 16 := hbs b (List.mem_cons_self b rest)
    have hxlen : (xorBytes b prev).length = 16 := by
      rw [xorBytes_length, hb, hprev]
      simp
    have hclen : (A.enc k (xorBytes b prev)).length = 16 := A.enc_length k _ hxlen
    intro c hc
    rcases List.mem_cons.mp hc with rfl | hc
    · exact hclen
    · exact cbcEnc_mem_length A k _ rest hclen
        (fun b hb => hbs b (List.mem_cons_of_mem _ hb)) c hc

theorem cbcEnc_mem_bytes (A : BlockCipherFamily) (k : List Nat) :
    ∀ (prev : List Nat) (bs : List (List Nat)), prev.length = 16 →
      (∀ x ∈ prev, x < 256) → (∀ b ∈ bs, b.length = 16) →
      (∀ b ∈ bs, ∀ x ∈ b, x < 256) →
      ∀ c ∈ cbcEncBlocks (A.enc k) prev bs, ∀ x ∈ c, x < 256
  | _, [], _, _, _, _ => by simp [cbcEncBlocks]
  | prev, b :: rest, hprev, hprevB, hbs, hbsB => by
    have hb : b.length = 16 := hbs b (List.mem_cons_self b rest)
    have hxlen : (xorBytes b prev).length = 16 := by
      rw [xorBytes_length, hb, hprev]
      simp
    have hxB : ∀ x ∈ xorBytes b prev, x < 256 :=
      xorBytes_bytes b prev (hbsB b (List.mem_cons_self b rest)) hprevB
    have hcB : ∀ x ∈ A.enc k (xorBytes b prev), x < 256 := A.enc_bytes k _ hxlen hxB
    intro c hc
    rcases List.mem_cons.mp hc with rfl | hc
    · exact hcB
    · exact cbcEnc_mem_bytes A k _ rest (A.enc_length k _ hxlen) hcB
        (fun b hb => hbs b (List.mem_cons_of_mem _ hb))
        (fun b hb => hbsB b (List.mem_cons_of_mem _ hb)) c hc

theorem cbcDec_cbcEnc (A : BlockCipherFamily) (k : List Nat) :
    ∀ (prev : List Nat) (bs : List (List Nat)), prev.length = 16 →
      (∀ b ∈ bs, b.length = 16) →
      cbcDecBlocks (A.dec k) prev (cbcEncBlocks (A.enc k) prev bs) = bs
  | _, [], _, _ => rfl
  | prev, b :: rest, hprev, hbs => by
    have hb : b.length = 16 := hbs b (List.mem_cons_self b rest)
    have hxlen : (xorBytes b prev).length = 16 := by
      rw [xorBytes_length, hb, hprev]
      simp
    simp only [cbcEncBlocks, cbcDecBlocks]
    rw [A.dec_enc k _ hxlen, xorBytes_cancel b prev (by rw [hb, hprev])]
    exact congrArg (b :: ·) (cbcDec_cbcEnc A k _ rest (A.enc_length k _ hxlen)
      (fun b hb => hbs b (List.mem_cons_of_mem _ hb)))

/-! ## AES-CBC round-trip (C3) -/

/-- C3 (amended): for every plaintext byte string and every key text of at
least 16 and at most 32 bytes, decrypting `aes_encrypt`'s output — with the
same key zero-padded to 32 bytes, the IV equal to the first 16 key bytes,
base64 decoding and PKCS7 unpadding — recovers the original plaintext
exactly, for any block cipher family (in particular AES). -/
theorem aes_encrypt_roundtrip (A : BlockCipherFamily) (plain key : List Nat)
    (hplain : ∀ x ∈ plain, x < 256) (hkeyB : ∀ x ∈ key, x < 256)
    (hkeyLo : 16 ≤ key.length) (hkeyHi : key.length ≤ 32) :
    encThenDec A plain key = some plain := by
  have hkpad : (zeroPadKey key).length = 32 := by
    simp only [zeroPadKey, List.length_append, List.length_replicate]
    omega
  have hiv : (ivOf key).length = 16 := by
    simp only [ivOf, List.length_take]
    omega
  have hivB : ∀ x ∈ ivOf key, x < 256 := fun x hx => hkeyB x (List.take_subset 16 key hx)
  have hblen : ∀ b ∈ toBlocks (pkcs7Pad plain), b.length = 16 :=
    toBlocks_mem_length _ (pkcs7Pad_length_mod plain)
  have hbbytes : ∀ b ∈ toBlocks (pkcs7Pad plain), ∀ x ∈ b, x < 256 :=
    toBlocks_mem_bytes _ (pkcs7Pad_bytes plain hplain)
  have hctlen : ∀ c ∈ cbcEncBlocks (A.enc (zeroPadKey key)) (ivOf key)
      (toBlocks (pkcs7Pad plain)), c.length = 16 :=
    cbcEnc_mem_length A (zeroPadKey key) (ivOf key) _ hiv hblen
  have hctbytes : ∀ x ∈ (cbcEncBlocks (A.enc (zeroPadKey key)) (ivOf key)
      (toBlocks (pkcs7Pad plain))).flatten, x < 256 := by
    intro x hx
    obtain ⟨c, hc, hxc⟩ := List.mem_flatten.mp hx
    exact cbcEnc_mem_bytes A (zeroPadKey key) (ivOf key) _ hiv hivB hblen hbbytes c hc x hxc
  have henc : aes_encrypt A plain key = Except.ok (b64encodeChars
      ((cbcEncBlocks (A.enc (zeroPadKey key)) (ivOf key)
        (toBlocks (pkcs7Pad plain))).flatten)) := by
    unfold aes_encrypt
    rw [if_neg (fun hc => hc hkpad), if_neg (fun hc => hc hiv)]
  unfold encThenDec
  rw [henc]
  show aes_decrypt A (b64encodeChars ((cbcEncBlocks (A.enc (zeroPadKey key)) (ivOf key)
    (toBlocks (pkcs7Pad plain))).flatten)) key = some plain
  unfold aes_decrypt
  rw [b64_roundtrip _ hctbytes]
  show pkcs7Unpad ((cbcDecBlocks (A.dec (zeroPadKey key)) (ivOf key)
    (toBlocks ((cbcEncBlocks (A.enc (zeroPadKey key)) (ivOf key)
      (toBlocks (pkcs7Pad plain))).flatten))).flatten) = some plain
  rw [toBlocks_flatten_of_blocks _ hctlen,
    cbcDec_cbcEnc A (zeroPadKey key) (ivOf key) _ hiv hblen,
    flatten_toBlocks]
  exact pkcs7Unpad_pad plain

theorem aes_encrypt_roundtrip_witness :
    encThenDec idFam [104, 105] (List.replicate 16 97) = some [104, 105] :=
  aes_encrypt_roundtrip idFam [104, 105] (List.replicate 16 97)
    (by decide) (by decide) (by decide) (by decide)

/-- C3 counterexample to the claim as stated: a key text of fewer than 16
bytes (here one byte) is within the claim's "at most 32 bytes", yet
`aes_encrypt` raises (the IV `key[:16]` is shorter than 16 bytes, which
`AES.new` rejects), so no round-trip is possible for it. -/
theorem aes_roundtrip_short_key_cex :
    aes_encrypt idFam [] [97] = Except.error AesError.badIVLength ∧
    encThenDec idFam [] [97] = none :=
  ⟨rfl, rfl⟩

end WPSSpec
